import Mathlib

/-!
# Formula4: a four-digit guessing game

A shallow embedding of the two browser scripts of the repository,
`src/frontend/script.js` and `src/singleplayer/script.js`.

* A JavaScript string is a Lean `String`; an array of strings is a `List String`.
* The value of each of the four `.digit` input boxes is one entry of a `List String`.
* Module-level variables (`secret`, `history`, the boxes, the hint) are fields of an
  explicit state record that every handler takes and returns.
* `Math.floor(Math.random() * n)` is an index supplied by a list of draws; a generator
  returns `none` when the list runs out or a draw lies outside `0 .. n-1`, which
  `Math.random()` in `[0,1)` never produces.
-/

namespace Formula4

/-! ## JavaScript string helpers -/

/-- Code points that `String.prototype.trim` strips (WhiteSpace and LineTerminator). -/
def jsIsTrimChar (c : Char) : Bool :=
  let n := c.toNat
  (9 ≤ n && n ≤ 13) || n == 32 || n == 160 || n == 5760 || (8192 ≤ n && n ≤ 8202) ||
    n == 8232 || n == 8233 || n == 8239 || n == 8287 || n == 12288 || n == 65279

/-- The method `s.trim()`. -/
def jsTrim (s : String) : String :=
  String.mk ((s.data.dropWhile jsIsTrimChar).reverse.dropWhile jsIsTrimChar).reverse

/-- The call `s.replace(/[^1-9]/g, "")`: keep the characters 1 to 9. -/
def keepOneToNine (s : String) : String :=
  String.mk (s.data.filter (fun c => 49 ≤ c.toNat && c.toNat ≤ 57))

/-- The call `s.replace(/\D/g, "")`: keep the characters 0 to 9. -/
def keepDigits (s : String) : String :=
  String.mk (s.data.filter (fun c => 48 ≤ c.toNat && c.toNat ≤ 57))

/-- The size of `new Set(arr)` compared with the length of `arr`. -/
def setSizeDiffers (arr : List String) : Bool :=
  arr.dedup.length != arr.length

/-! ## Random draws -/

/-- The bounds of `m` successive draws, the first below `n`, each next bound one less. -/
def drawBounds : Nat → Nat → List Nat
  | _, 0 => []
  | n, m + 1 => n :: drawBounds (n - 1) m

/-- All draw sequences whose k-th entry is below the k-th bound. -/
def drawSequences : List Nat → List (List Nat)
  | [] => [[]]
  | b :: bs => (List.range b).flatMap (fun j => (drawSequences bs).map (fun ds => j :: ds))

/-- Every draw is below its bound, and there is one draw per bound. -/
def InRange (draws bounds : List Nat) : Prop :=
  List.Forall₂ (fun j b => j < b) draws bounds

/-! ## Vocabulary of the specification -/

/-- The digit symbols of the game. -/
def digitPool : List String := ["1", "2", "3", "4", "5", "6", "7", "8", "9"]

/-- A sequence of exactly four pairwise distinct entries. -/
def Distinct4 (l : List String) : Prop := l.length = 4 ∧ l.Nodup

/-- A sequence of exactly four pairwise distinct digits from 1 to 9. -/
def ValidSeq (l : List String) : Prop :=
  l.length = 4 ∧ l.Nodup ∧ ∀ d ∈ l, d ∈ digitPool

instance : DecidablePred Distinct4 := fun l => by unfold Distinct4; infer_instance

instance : DecidablePred ValidSeq := fun l => by unfold ValidSeq; infer_instance

/-- Each box is empty or holds one digit from 1 to 9, and no digit is in two boxes. -/
def BoxesOk (boxes : List String) : Prop :=
  (∀ b ∈ boxes, b = "" ∨ b ∈ digitPool) ∧ (boxes.filter (fun b => b != "")).Nodup

instance : DecidablePred BoxesOk := fun l => by unfold BoxesOk; infer_instance

/-! ## `src/frontend/script.js` -/

namespace Frontend

/-- The result object of `scoreGuess`. -/
structure Score where
  correctDigits : Nat
  correctPositions : Nat
deriving DecidableEq, Repr

/-- One row of `history`. -/
structure HistoryEntry where
  numberStr : String
  correctDigits : Nat
  correctPositions : Nat
deriving DecidableEq, Repr

/-- The result object of `validGuess`. -/
structure Validation where
  ok : Bool
  msg : String
deriving DecidableEq, Repr

/-- The module-level state: `secret`, `history`, the values of `inputs`, the text of
`hint`, and whether the boxes carry the class `win`. -/
structure State where
  secret : List String
  history : List HistoryEntry
  inputs : List String
  hint : String
  win : Bool
deriving DecidableEq, Repr

/-- The loop of `generateSecret`, lines 25-28: for `i` down to 1, swap `digits[i]` and
`digits[j]` for the drawn `j` in `0 .. i`. -/
def shuffleLoop : Nat → List String → List Nat → Option (List String)
  | 0, digits, _ => some digits
  | _ + 1, _, [] => none
  | i + 1, digits, j :: rest =>
    if j ≤ i + 1 then
      match digits[i + 1]?, digits[j]? with
      | some di, some dj => shuffleLoop i ((digits.set (i + 1) dj).set j di) rest
      | _, _ => none
    else none

/-- The function `generateSecret`, lines 23-32. -/
def generateSecret (draws : List Nat) : Option (List String) :=
  (shuffleLoop (digitPool.length - 1) digitPool draws).map (fun digits => digits.take 4)

/-- The function `getGuessArray`, lines 34-36. -/
def getGuessArray (inputs : List String) : List String :=
  inputs.map jsTrim

/-- The function `hasDuplicates`, lines 38-41. -/
def hasDuplicates (arr : List String) : Bool :=
  setSizeDiffers arr

/-- The function `validGuess`, lines 43-48. -/
def validGuess (arr : List String) : Validation :=
  if arr.any (fun d => d == "") then { ok := false, msg := "Enter all four digits." }
  else if arr.any (fun d => d == "0") then { ok := false, msg := "Use digits 1–9 (no zero)." }
  else if hasDuplicates arr then { ok := false, msg := "All digits must be unique." }
  else { ok := true, msg := "" }

/-- The function `scoreGuess`, lines 51-56. An index past the end reads `undefined`,
here `none`, and `undefined === undefined` holds. -/
def scoreGuess (guessArr secretArr : List String) : Score :=
  let correctDigits := (guessArr.filter (fun d => secretArr.contains d)).length
  let correctPositions := (List.range 4).foldl
    (fun acc i => if guessArr[i]? = secretArr[i]? then acc + 1 else acc) 0
  { correctDigits := correctDigits, correctPositions := correctPositions }

/-- The `input` listener of box `idx`, lines 68-84, run after the browser has put `raw`
into that box. -/
def onInput (st : State) (idx : Nat) (raw : String) : State :=
  let inputs := st.inputs.set idx raw
  let v0 := keepOneToNine raw
  let v := if v0.length > 1 then String.mk (v0.data.take 1) else v0
  let others := ((getGuessArray inputs).enum.filter (fun p => p.1 != idx)).map (fun p => p.2)
  if others.contains v then
    { st with inputs := inputs.set idx "", hint := "No repeating digits." }
  else
    { st with inputs := inputs.set idx v, hint := "" }

/-- The helper `s(n)`, line 183. -/
def plural (n : Nat) : String := if n = 1 then "" else "s"

/-- The function `submit`, lines 135-159. -/
def submit (st : State) : State :=
  let guess := getGuessArray st.inputs
  let v := validGuess guess
  if !v.ok then { st with hint := v.msg }
  else
    let sc := scoreGuess guess st.secret
    let entry : HistoryEntry :=
      { numberStr := String.join guess, correctDigits := sc.correctDigits,
        correctPositions := sc.correctPositions }
    let cleared := st.inputs.map (fun _ => "")
    if sc.correctPositions = 4 then
      { st with history := entry :: st.history, inputs := cleared, win := true,
                hint := "🎉 You cracked it! Press Reset to play again." }
    else
      { st with history := entry :: st.history, inputs := cleared,
                hint := toString sc.correctDigits ++ " correct digit" ++
                  plural sc.correctDigits ++ ", " ++ toString sc.correctPositions ++
                  " in correct position" ++ plural sc.correctPositions ++ "." }

/-- The function `resetGame`, lines 173-180. -/
def resetGame (st : State) (draws : List Nat) : Option State :=
  (generateSecret draws).map fun s =>
    { secret := s, history := [], inputs := st.inputs.map (fun _ => ""),
      hint := "New round started.", win := false }

end Frontend

/-! ## `src/singleplayer/script.js` -/

namespace Singleplayer

/-- The result object of `scoreGuess`. -/
structure Score where
  digitsCorrect : Nat
  positionsCorrect : Nat
deriving DecidableEq, Repr

/-- One row appended to `historyBody`. -/
structure Row where
  guess : String
  digitsCorrect : Nat
  positionsCorrect : Nat
deriving DecidableEq, Repr

/-- The module-level state: `secret`, the values of `digitsInputs`, the rows of
`historyBody` in display order, and the `disabled` flags of the submit button and of
the boxes. The hint text is display only and is left out. -/
structure State where
  secret : List String
  digitsInputs : List String
  historyBody : List Row
  submitDisabled : Bool
  inputsDisabled : Bool
deriving DecidableEq, Repr

/-- The loop of `makeSecret`, lines 45-48: while `secret` has fewer than 4 entries,
splice the drawn index out of `pool` and push it. -/
def makeSecretLoop (pool secret : List String) (draws : List Nat) : Option (List String) :=
  if secret.length < 4 then
    match draws with
    | [] => none
    | idx :: rest =>
      match pool[idx]? with
      | none => none
      | some n => makeSecretLoop (pool.eraseIdx idx) (secret ++ [n]) rest
  else some secret

/-- The function `makeSecret`, lines 42-50; the new value of `secret`. -/
def makeSecret (draws : List Nat) : Option (List String) :=
  makeSecretLoop digitPool [] draws

/-- The function `nextEmptyIndex`, lines 54-57. -/
def nextEmptyIndex (digitsInputs : List String) : Nat :=
  ((List.range 4).find? (fun i => (digitsInputs.getD i "") == "")).getD 4

/-- The function `isDuplicate`, lines 69-73. -/
def isDuplicate (digitsInputs : List String) (value : String) (index : Nat) : Bool :=
  let vals := digitsInputs.enum.map (fun p => if p.1 = index then value else p.2)
  setSizeDiffers (vals.filter (fun v => v != ""))

/-- The `input` listener of box `index`, lines 80-99, run after the browser has put
`raw` into that box. -/
def onInput (st : State) (index : Nat) (raw : String) : State :=
  let inputs := st.digitsInputs.set index raw
  let v0 := keepDigits raw
  let v1 := if v0 = "0" then "" else v0
  let v := if v1.length > 1 then String.mk (v1.data.drop (v1.length - 1)) else v1
  if v != "" && isDuplicate inputs v index then
    { st with digitsInputs := inputs.set index "" }
  else
    { st with digitsInputs := inputs.set index v }

/-- The keypad `click` listener, lines 118-135, for a key whose text is `digit`. -/
def onKeypad (st : State) (digit : String) : State :=
  let idx := nextEmptyIndex st.digitsInputs
  if idx ≥ 4 then st
  else if isDuplicate st.digitsInputs digit idx then st
  else { st with digitsInputs := st.digitsInputs.set idx digit }

/-- The function `scoreGuess`, lines 139-145, with the module-level `secret` passed in. -/
def scoreGuess (secret guessArr : List String) : Score :=
  let digitsCorrect := (guessArr.filter (fun d => secret.contains d)).length
  let positionsCorrect := guessArr.enum.foldl
    (fun acc p => acc + (if secret[p.1]? = some p.2 then 1 else 0)) 0
  { digitsCorrect := digitsCorrect, positionsCorrect := positionsCorrect }

/-- The function `onSubmit`, lines 147-180. -/
def onSubmit (st : State) : State :=
  let guessArr := st.digitsInputs
  if guessArr.any (fun v => v == "") then st
  else
    let sc := scoreGuess st.secret guessArr
    let row : Row :=
      { guess := String.join guessArr, digitsCorrect := sc.digitsCorrect,
        positionsCorrect := sc.positionsCorrect }
    let cleared := st.digitsInputs.map (fun _ => "")
    if sc.positionsCorrect = 4 then
      { st with historyBody := st.historyBody ++ [row], digitsInputs := cleared,
                submitDisabled := true, inputsDisabled := true }
    else
      { st with historyBody := st.historyBody ++ [row], digitsInputs := cleared }

/-- The function `resetGame`, lines 185-192. -/
def resetGame (st : State) (draws : List Nat) : Option State :=
  (makeSecret draws).map fun s =>
    { secret := s, digitsInputs := st.digitsInputs.map (fun _ => ""), historyBody := [],
      submitDisabled := false, inputsDisabled := false }

end Singleplayer

/-! ## Auxiliary definitions for the analysis of the shuffle -/

/-- The first `a.length` entries after one pass of the shuffle loop over `a ++ [x]` with
drawn index `j`. -/
def stepActive (a : List String) (x : String) (j : Nat) : List String :=
  if j < a.length then a.set j x else a

/-- The entry that one pass of the shuffle loop over `a ++ [x]` with drawn index `j` moves
to the last place. -/
def stepPicked (a : List String) (x : String) (j : Nat) : String :=
  (a ++ [x]).getD j ""

/-! ## Scoring -/

theorem length_four {l : List String} (h : l.length = 4) : ∃ a b c d, l = [a, b, c, d] := by
  match l, h with
  | [a, b, c, d], _ => exact ⟨a, b, c, d, rfl⟩

theorem frontend_positions (a b c d e f g h : String) :
    (Frontend.scoreGuess [a, b, c, d] [e, f, g, h]).correctPositions =
      (if a = e then 1 else 0) + (if b = f then 1 else 0) + (if c = g then 1 else 0) +
        (if d = h then 1 else 0) := by
  simp [Frontend.scoreGuess, List.range_succ]
  split_ifs <;> rfl

theorem singleplayer_positions (a b c d e f g h : String) :
    (Singleplayer.scoreGuess [e, f, g, h] [a, b, c, d]).positionsCorrect =
      (if e = a then 1 else 0) + (if f = b then 1 else 0) + (if g = c then 1 else 0) +
        (if h = d then 1 else 0) := by
  simp [Singleplayer.scoreGuess, List.enum, List.enumFrom]

theorem digits_four (a b c d : String) (s : List String) :
    ([a, b, c, d].filter (fun x => s.contains x)).length =
      (if a ∈ s then 1 else 0) + (if b ∈ s then 1 else 0) + (if c ∈ s then 1 else 0) +
        (if d ∈ s then 1 else 0) := by
  simp [List.filter_cons]
  split_ifs <;> rfl


theorem indicator_le {p q : Prop} [Decidable p] [Decidable q] (h : p → q) :
    (if p then 1 else 0) ≤ (if q then 1 else 0 : Nat) := by
  split_ifs with h1 h2 <;> simp_all

theorem indicator_le_one (p : Prop) [Decidable p] : (if p then 1 else 0 : Nat) ≤ 1 := by
  split_ifs <;> simp

theorem digits_eq_inter_card (g s : List String) (hg : g.Nodup) :
    (g.filter (fun d => s.contains d)).length = (g.toFinset ∩ s.toFinset).card := by
  rw [← List.toFinset_card_of_nodup (hg.filter _), List.toFinset_filter]
  congr 1
  ext x
  simp

theorem four_indicators_eq_four {p q r t : Prop} [Decidable p] [Decidable q] [Decidable r]
    [Decidable t] :
    ((if p then 1 else 0) + (if q then 1 else 0) + (if r then 1 else 0) +
      (if t then 1 else 0) : Nat) = 4 ↔ p ∧ q ∧ r ∧ t := by
  split_ifs <;> simp_all

/-- C1: for a valid guess and a valid secret, both scoring functions return counts with
`0 ≤ positions ≤ digits ≤ 4`. -/
theorem scoreGuess_bounds (guess secret : List String)
    (hg : ValidSeq guess) (hs : ValidSeq secret) :
    (0 ≤ (Frontend.scoreGuess guess secret).correctPositions ∧
      (Frontend.scoreGuess guess secret).correctPositions ≤
        (Frontend.scoreGuess guess secret).correctDigits ∧
      (Frontend.scoreGuess guess secret).correctDigits ≤ 4) ∧
    (0 ≤ (Singleplayer.scoreGuess secret guess).positionsCorrect ∧
      (Singleplayer.scoreGuess secret guess).positionsCorrect ≤
        (Singleplayer.scoreGuess secret guess).digitsCorrect ∧
      (Singleplayer.scoreGuess secret guess).digitsCorrect ≤ 4) := by
  obtain ⟨a, b, c, d, rfl⟩ := length_four hg.1
  obtain ⟨e, f, g, h, rfl⟩ := length_four hs.1
  have hd1 : (Frontend.scoreGuess [a, b, c, d] [e, f, g, h]).correctDigits =
      ([a, b, c, d].filter (fun x => [e, f, g, h].contains x)).length := rfl
  have hd2 : (Singleplayer.scoreGuess [e, f, g, h] [a, b, c, d]).digitsCorrect =
      ([a, b, c, d].filter (fun x => [e, f, g, h].contains x)).length := rfl
  rw [frontend_positions, singleplayer_positions, hd1, hd2, digits_four]
  have h1 : (if a = e then 1 else 0) ≤ (if a ∈ [e, f, g, h] then 1 else 0 : Nat) :=
    indicator_le (fun h => by simp [h])
  have h2 : (if b = f then 1 else 0) ≤ (if b ∈ [e, f, g, h] then 1 else 0 : Nat) :=
    indicator_le (fun h => by simp [h])
  have h3 : (if c = g then 1 else 0) ≤ (if c ∈ [e, f, g, h] then 1 else 0 : Nat) :=
    indicator_le (fun h => by simp [h])
  have h4 : (if d = h then 1 else 0) ≤ (if d ∈ [e, f, g, h] then 1 else 0 : Nat) :=
    indicator_le (fun h => by simp [h])
  have h1' : (if e = a then 1 else 0) ≤ (if a ∈ [e, f, g, h] then 1 else 0 : Nat) :=
    indicator_le (fun h => by simp [h])
  have h2' : (if f = b then 1 else 0) ≤ (if b ∈ [e, f, g, h] then 1 else 0 : Nat) :=
    indicator_le (fun h => by simp [h])
  have h3' : (if g = c then 1 else 0) ≤ (if c ∈ [e, f, g, h] then 1 else 0 : Nat) :=
    indicator_le (fun h => by simp [h])
  have h4' : (if h = d then 1 else 0) ≤ (if d ∈ [e, f, g, h] then 1 else 0 : Nat) :=
    indicator_le (fun h => by simp [h])
  have k1 := indicator_le_one (a ∈ [e, f, g, h])
  have k2 := indicator_le_one (b ∈ [e, f, g, h])
  have k3 := indicator_le_one (c ∈ [e, f, g, h])
  have k4 := indicator_le_one (d ∈ [e, f, g, h])
  refine ⟨⟨Nat.zero_le _, ?_, ?_⟩, ⟨Nat.zero_le _, ?_, ?_⟩⟩ <;> omega

/-- The bounds at guess 7,3,9,2 and secret 3,7,1,9. -/
theorem scoreGuess_bounds_witness :
    ValidSeq ["7", "3", "9", "2"] ∧ ValidSeq ["3", "7", "1", "9"] ∧
    (Frontend.scoreGuess ["7", "3", "9", "2"] ["3", "7", "1", "9"]).correctPositions ≤
      (Frontend.scoreGuess ["7", "3", "9", "2"] ["3", "7", "1", "9"]).correctDigits :=
  ⟨by decide, by decide,
    (scoreGuess_bounds ["7", "3", "9", "2"] ["3", "7", "1", "9"] (by decide) (by decide)).1.2.1⟩

/-- C2: for a valid guess and a valid secret, four correct positions are reported exactly
when the guess equals the secret, four correct digits are then reported as well, and a
valid secret scored against itself gives 4 and 4; so does the secret 3,7,1,9. -/
theorem scoreGuess_win_iff (guess secret : List String)
    (hg : ValidSeq guess) (hs : ValidSeq secret) :
    (((Frontend.scoreGuess guess secret).correctPositions = 4 ↔ guess = secret) ∧
      ((Frontend.scoreGuess guess secret).correctPositions = 4 →
        (Frontend.scoreGuess guess secret).correctDigits = 4)) ∧
    (((Singleplayer.scoreGuess secret guess).positionsCorrect = 4 ↔ guess = secret) ∧
      ((Singleplayer.scoreGuess secret guess).positionsCorrect = 4 →
        (Singleplayer.scoreGuess secret guess).digitsCorrect = 4)) ∧
    Frontend.scoreGuess secret secret = { correctDigits := 4, correctPositions := 4 } ∧
    Singleplayer.scoreGuess secret secret = { digitsCorrect := 4, positionsCorrect := 4 } ∧
    Frontend.scoreGuess ["3", "7", "1", "9"] ["3", "7", "1", "9"] =
      { correctDigits := 4, correctPositions := 4 } ∧
    Singleplayer.scoreGuess ["3", "7", "1", "9"] ["3", "7", "1", "9"] =
      { digitsCorrect := 4, positionsCorrect := 4 } := by
  obtain ⟨a, b, c, d, rfl⟩ := length_four hg.1
  obtain ⟨e, f, g, h, rfl⟩ := length_four hs.1
  have hself : ([e, f, g, h].filter (fun x => [e, f, g, h].contains x)).length = 4 := by
    simp
  have hF : (Frontend.scoreGuess [a, b, c, d] [e, f, g, h]).correctPositions = 4 ↔
      [a, b, c, d] = [e, f, g, h] := by
    rw [frontend_positions, four_indicators_eq_four]; simp
  have hS : (Singleplayer.scoreGuess [e, f, g, h] [a, b, c, d]).positionsCorrect = 4 ↔
      [a, b, c, d] = [e, f, g, h] := by
    rw [singleplayer_positions, four_indicators_eq_four]
    constructor
    · rintro ⟨rfl, rfl, rfl, rfl⟩; rfl
    · intro h; injection h with h1 h; injection h with h2 h; injection h with h3 h
      injection h with h4 h
      exact ⟨h1.symm, h2.symm, h3.symm, h4.symm⟩
  have hFself : Frontend.scoreGuess [e, f, g, h] [e, f, g, h] =
      { correctDigits := 4, correctPositions := 4 } := by
    have h1 : (Frontend.scoreGuess [e, f, g, h] [e, f, g, h]).correctPositions = 4 := by
      rw [frontend_positions]; simp
    have h2 : (Frontend.scoreGuess [e, f, g, h] [e, f, g, h]).correctDigits = 4 := hself
    cases hsc : Frontend.scoreGuess [e, f, g, h] [e, f, g, h] with
    | mk x y => rw [hsc] at h1 h2; simp at h1 h2; rw [h1, h2]
  have hSself : Singleplayer.scoreGuess [e, f, g, h] [e, f, g, h] =
      { digitsCorrect := 4, positionsCorrect := 4 } := by
    have h1 : (Singleplayer.scoreGuess [e, f, g, h] [e, f, g, h]).positionsCorrect = 4 := by
      rw [singleplayer_positions]; simp
    have h2 : (Singleplayer.scoreGuess [e, f, g, h] [e, f, g, h]).digitsCorrect = 4 := hself
    cases hsc : Singleplayer.scoreGuess [e, f, g, h] [e, f, g, h] with
    | mk x y => rw [hsc] at h1 h2; simp at h1 h2; rw [h1, h2]
  refine ⟨⟨hF, ?_⟩, ⟨hS, ?_⟩, hFself, hSself, by decide, by decide⟩
  · intro hp; rw [hF.1 hp]; exact hself
  · intro hp; rw [hS.1 hp]; exact hself

/-- The win condition at guess and secret 3,7,1,9. -/
theorem scoreGuess_win_iff_witness :
    ValidSeq ["3", "7", "1", "9"] ∧
    ((Frontend.scoreGuess ["3", "7", "1", "9"] ["3", "7", "1", "9"]).correctPositions = 4 ↔
      ["3", "7", "1", "9"] = ["3", "7", "1", "9"]) :=
  ⟨by decide,
    (scoreGuess_win_iff ["3", "7", "1", "9"] ["3", "7", "1", "9"] (by decide) (by decide)).1.1⟩


theorem positions_zero_of_disjoint (a b c d e f g h : String)
    (hdis : ∀ x ∈ [a, b, c, d], x ∉ [e, f, g, h]) :
    a ≠ e ∧ b ≠ f ∧ c ≠ g ∧ d ≠ h := by
  refine ⟨?_, ?_, ?_, ?_⟩ <;> intro hEq
  · exact hdis a (by simp) (by simp [hEq])
  · exact hdis b (by simp) (by simp [hEq])
  · exact hdis c (by simp) (by simp [hEq])
  · exact hdis d (by simp) (by simp [hEq])

/-- C3: for a guess and a secret of four pairwise distinct digits each, the digit count
of both scoring functions is the size of the intersection of the two digit sets, it is
unchanged when guess and secret are swapped, a guess sharing no digit with the secret
scores 0 and 0, and guess 7,3,9,2 against secret 3,7,1,9 scores 3 and 0. -/
theorem scoreGuess_digits_inter (guess secret : List String)
    (hg : Distinct4 guess) (hs : Distinct4 secret) :
    (Frontend.scoreGuess guess secret).correctDigits =
      (guess.toFinset ∩ secret.toFinset).card ∧
    (Singleplayer.scoreGuess secret guess).digitsCorrect =
      (guess.toFinset ∩ secret.toFinset).card ∧
    (Frontend.scoreGuess guess secret).correctDigits =
      (Frontend.scoreGuess secret guess).correctDigits ∧
    (Singleplayer.scoreGuess secret guess).digitsCorrect =
      (Singleplayer.scoreGuess guess secret).digitsCorrect ∧
    ((∀ x ∈ guess, x ∉ secret) →
      Frontend.scoreGuess guess secret = { correctDigits := 0, correctPositions := 0 } ∧
      Singleplayer.scoreGuess secret guess = { digitsCorrect := 0, positionsCorrect := 0 }) ∧
    Frontend.scoreGuess ["7", "3", "9", "2"] ["3", "7", "1", "9"] =
      { correctDigits := 3, correctPositions := 0 } ∧
    Singleplayer.scoreGuess ["3", "7", "1", "9"] ["7", "3", "9", "2"] =
      { digitsCorrect := 3, positionsCorrect := 0 } := by
  have hgs := digits_eq_inter_card guess secret hg.2
  have hsg := digits_eq_inter_card secret guess hs.2
  rw [Finset.inter_comm] at hsg
  refine ⟨hgs, hgs, hgs.trans hsg.symm, hgs.trans hsg.symm, ?_, by decide, by decide⟩
  intro hdis
  have hzero : (guess.filter (fun x => secret.contains x)).length = 0 := by
    rw [List.length_eq_zero, List.filter_eq_nil_iff]
    intro x hx; simpa using hdis x hx
  obtain ⟨a, b, c, d, rfl⟩ := length_four hg.1
  obtain ⟨e, f, g, h, rfl⟩ := length_four hs.1
  obtain ⟨h1, h2, h3, h4⟩ := positions_zero_of_disjoint a b c d e f g h hdis
  constructor
  · have hp : (Frontend.scoreGuess [a, b, c, d] [e, f, g, h]).correctPositions = 0 := by
      rw [frontend_positions]; simp [h1, h2, h3, h4]
    have hd : (Frontend.scoreGuess [a, b, c, d] [e, f, g, h]).correctDigits = 0 := hzero
    cases hsc : Frontend.scoreGuess [a, b, c, d] [e, f, g, h] with
    | mk x y => rw [hsc] at hp hd; simp at hp hd; rw [hp, hd]
  · have hp : (Singleplayer.scoreGuess [e, f, g, h] [a, b, c, d]).positionsCorrect = 0 := by
      rw [singleplayer_positions]; simp [Ne.symm h1, Ne.symm h2, Ne.symm h3, Ne.symm h4]
    have hd : (Singleplayer.scoreGuess [e, f, g, h] [a, b, c, d]).digitsCorrect = 0 := hzero
    cases hsc : Singleplayer.scoreGuess [e, f, g, h] [a, b, c, d] with
    | mk x y => rw [hsc] at hp hd; simp at hp hd; rw [hp, hd]

/-- The disjoint case at guess 1,2,3,4 and secret 5,6,7,8. -/
theorem scoreGuess_digits_inter_witness :
    Distinct4 ["1", "2", "3", "4"] ∧ Distinct4 ["5", "6", "7", "8"] ∧
    (∀ x ∈ ["1", "2", "3", "4"], x ∉ ["5", "6", "7", "8"]) ∧
    Frontend.scoreGuess ["1", "2", "3", "4"] ["5", "6", "7", "8"] =
      { correctDigits := 0, correctPositions := 0 } :=
  ⟨by decide, by decide, by decide,
    ((scoreGuess_digits_inter ["1", "2", "3", "4"] ["5", "6", "7", "8"] (by decide)
      (by decide)).2.2.2.2.1 (by decide)).1⟩

/-! ## Duplicate detection and validation -/

theorem setSizeDiffers_iff (l : List String) : setSizeDiffers l = true ↔ ¬ l.Nodup := by
  unfold setSizeDiffers
  rw [bne_iff_ne, ne_eq, not_iff_not]
  constructor
  · intro h
    exact List.dedup_eq_self.1 ((List.dedup_sublist l).eq_of_length h)
  · intro h
    rw [List.dedup_eq_self.2 h]

theorem enumFrom_map_set (v : String) :
    ∀ (l : List String) (n i : Nat),
      (l.enumFrom n).map (fun p => if p.1 = n + i then v else p.2) = l.set i v := by
  intro l
  induction l with
  | nil => intro n i; simp
  | cons x xs ih =>
    intro n i
    cases i with
    | zero =>
      simp only [List.enumFrom_cons, List.map_cons, List.set_cons_zero, Nat.add_zero,
        if_true]
      congr 1
      have := ih (n + 1) xs.length
      rw [List.set_eq_of_length_le (le_refl _)] at this
      refine Eq.trans ?_ this
      apply List.map_congr_left
      intro p hp
      have hp1 := List.fst_lt_add_of_mem_enumFrom hp
      have hp2 := List.le_fst_of_mem_enumFrom hp
      have h1 : p.1 ≠ n := by omega
      have h2 : p.1 ≠ n + 1 + xs.length := by omega
      simp [h1, h2]
    | succ i =>
      simp only [List.enumFrom_cons, List.map_cons, List.set_cons_succ]
      have h1 : n ≠ n + (i + 1) := by omega
      rw [if_neg h1]
      congr 1
      have := ih (n + 1) i
      rw [← this]
      apply List.map_congr_left
      intro p _
      have : n + 1 + i = n + (i + 1) := by omega
      rw [this]

theorem isDuplicate_eq (l : List String) (v : String) (i : Nat) :
    Singleplayer.isDuplicate l v i = setSizeDiffers ((l.set i v).filter (fun x => x != "")) := by
  unfold Singleplayer.isDuplicate
  have := enumFrom_map_set v l 0 i
  simp only [Nat.zero_add] at this
  simp only [List.enum, this]

theorem not_nodup_set_filter (v : String) (hv : v ≠ "") :
    ∀ (l : List String) (i : Nat), i < l.length →
      (l.filter (fun x => x != "")).Nodup →
      (¬ ((l.set i v).filter (fun x => x != "")).Nodup ↔
        ∃ j, j ≠ i ∧ l[j]? = some v) := by
  intro l
  induction l with
  | nil => intro i hi; simp at hi
  | cons x xs ih =>
    intro i hi hnd
    have hxs : (xs.filter (fun x => x != "")).Nodup := by
      by_cases hx : x = ""
      · simpa [List.filter_cons, hx] using hnd
      · have : (x :: xs.filter (fun x => x != "")).Nodup := by
          simpa [List.filter_cons, hx] using hnd
        exact (List.nodup_cons.1 this).2
    cases i with
    | zero =>
      simp only [List.set_cons_zero]
      have hf : (v :: xs).filter (fun x => x != "") = v :: xs.filter (fun x => x != "") := by
        simp [List.filter_cons, hv]
      rw [hf, List.nodup_cons]
      constructor
      · intro h
        have hm : v ∈ xs.filter (fun x => x != "") := by
          by_contra hc; exact h ⟨hc, hxs⟩
        have hm' : v ∈ xs := (List.mem_filter.1 hm).1
        obtain ⟨k, hk, hkv⟩ := List.getElem_of_mem hm'
        refine ⟨k + 1, by omega, ?_⟩
        simp [List.getElem?_eq_getElem hk, hkv]
      · rintro ⟨j, hj, hjv⟩ ⟨hnot, _⟩
        cases j with
        | zero => exact hj rfl
        | succ j =>
          simp only [List.getElem?_cons_succ] at hjv
          have hm : v ∈ xs := List.getElem?_mem hjv
          exact hnot (List.mem_filter.2 ⟨hm, by simpa using hv⟩)
    | succ i =>
      have hi' : i < xs.length := by simpa using hi
      simp only [List.set_cons_succ]
      have IH := ih i hi' hxs
      by_cases hx : x = ""
      · have hf : (x :: xs.set i v).filter (fun x => x != "") =
            (xs.set i v).filter (fun x => x != "") := by
          simp [List.filter_cons, hx]
        rw [hf, IH]
        constructor
        · rintro ⟨j, hj, hjv⟩
          exact ⟨j + 1, by omega, by simpa using hjv⟩
        · rintro ⟨j, hj, hjv⟩
          cases j with
          | zero =>
            simp only [List.getElem?_cons_zero, Option.some.injEq] at hjv
            exact absurd (hjv.symm.trans hx) hv
          | succ j =>
            exact ⟨j, by omega, by simpa using hjv⟩
      · have hf : (x :: xs.set i v).filter (fun x => x != "") =
            x :: (xs.set i v).filter (fun x => x != "") := by
          simp [List.filter_cons, hx]
        have hxnot : x ∉ xs := by
          have : (x :: xs.filter (fun x => x != "")).Nodup := by
            simpa [List.filter_cons, hx] using hnd
          intro hm
          exact (List.nodup_cons.1 this).1 (List.mem_filter.2 ⟨hm, by simpa using hx⟩)
        have hvset : v ∈ xs.set i v := List.mem_set xs i hi' v
        rw [hf, List.nodup_cons, not_and_or, not_not, IH]
        constructor
        · rintro (hm | ⟨j, hj, hjv⟩)
          · have hm' := (List.mem_filter.1 hm).1
            rcases List.mem_or_eq_of_mem_set hm' with h | h
            · exact absurd h hxnot
            · exact ⟨0, by omega, by simp [h]⟩
          · exact ⟨j + 1, by omega, by simpa using hjv⟩
        · rintro ⟨j, hj, hjv⟩
          cases j with
          | zero =>
            simp only [List.getElem?_cons_zero, Option.some.injEq] at hjv
            left
            rw [hjv]
            exact List.mem_filter.2 ⟨hvset, by simpa using hv⟩
          | succ j =>
            right
            exact ⟨j, by omega, by simpa using hjv⟩


/-- C7: for four boxes, each empty or holding one digit, with pairwise distinct filled
boxes, a digit `d` and a target index `i` below 4, `isDuplicate` answers true exactly
when `d` is held by a box at an index other than `i`; with 5 in box 0 and target 2 it
answers true. -/
theorem isDuplicate_iff (boxes : List String) (d : String) (i : Nat)
    (hlen : boxes.length = 4) (hbox : BoxesOk boxes) (hd : d ∈ digitPool) (hi : i < 4) :
    (Singleplayer.isDuplicate boxes d i = true ↔
      ∃ j, j < 4 ∧ j ≠ i ∧ boxes[j]? = some d) ∧
    Singleplayer.isDuplicate ["5", "", "", ""] "5" 2 = true := by
  refine ⟨?_, by decide⟩
  have hv : d ≠ "" := by
    intro h; rw [h] at hd; revert hd; decide
  rw [isDuplicate_eq, setSizeDiffers_iff,
    not_nodup_set_filter d hv boxes i (by omega) hbox.2]
  constructor
  · rintro ⟨j, hj, hjv⟩
    have hlt : j < boxes.length := by
      by_contra hc
      rw [List.getElem?_eq_none (by omega)] at hjv
      exact Option.noConfusion hjv
    exact ⟨j, by omega, hj, hjv⟩
  · rintro ⟨j, _, hj, hjv⟩
    exact ⟨j, hj, hjv⟩

/-- The duplicate test at boxes 5,empty,7,empty with digit 7 aimed at box 1. -/
theorem isDuplicate_iff_witness :
    BoxesOk ["5", "", "7", ""] ∧
    (Singleplayer.isDuplicate ["5", "", "7", ""] "7" 1 = true ↔
      ∃ j, j < 4 ∧ j ≠ 1 ∧ ["5", "", "7", ""][j]? = some "7") :=
  ⟨by decide,
    (isDuplicate_iff ["5", "", "7", ""] "7" 1 (by decide) (by decide) (by decide)
      (by decide)).1⟩

theorem validGuess_ok_iff (arr : List String) :
    (Frontend.validGuess arr).ok = true ↔ "" ∉ arr ∧ "0" ∉ arr ∧ arr.Nodup := by
  unfold Frontend.validGuess Frontend.hasDuplicates
  by_cases h1 : arr.any (fun d => d == "") = true
  · have : "" ∈ arr := by simpa using h1
    simp [h1, this]
  · have h1' : "" ∉ arr := by simpa using h1
    by_cases h2 : arr.any (fun d => d == "0") = true
    · have : "0" ∈ arr := by simpa using h2
      simp [h1, h2, this]
    · have h2' : "0" ∉ arr := by simpa using h2
      by_cases h3 : setSizeDiffers arr = true
      · have := (setSizeDiffers_iff arr).1 h3
        simp [h1, h2, h3, this]
      · have : arr.Nodup := by
          by_contra hc; exact h3 ((setSizeDiffers_iff arr).2 hc)
        simp [h1, h2, h3, this, h1', h2']

/-- C4, as stated, fails: `validGuess` accepts four distinct letters and accepts a
candidate of only two symbols, neither of which is four digits from 1 to 9. -/
theorem validGuess_accepts_non_digits :
    (Frontend.validGuess ["a", "b", "c", "d"]).ok = true ∧ ¬ ValidSeq ["a", "b", "c", "d"] ∧
    (Frontend.validGuess ["1", "2"]).ok = true ∧ ¬ ValidSeq ["1", "2"] := by
  decide

/-- C4, amended: `validGuess` reports ok exactly when no symbol is empty, no symbol is
"0" and no symbol repeats; for a candidate of four symbols that are each empty, "0" or
a digit from 1 to 9 this is exactly being four pairwise distinct digits from 1 to 9; the
boxes reading 1,2,empty,empty, then 1,2,0,3, then 1,1,2,3 are rejected with their
messages and 1,2,3,4 is accepted. -/
theorem validGuess_amended :
    (∀ arr : List String,
      (Frontend.validGuess arr).ok = true ↔ "" ∉ arr ∧ "0" ∉ arr ∧ arr.Nodup) ∧
    (∀ arr : List String, arr.length = 4 →
      (∀ d ∈ arr, d = "" ∨ d = "0" ∨ d ∈ digitPool) →
      ((Frontend.validGuess arr).ok = true ↔ ValidSeq arr)) ∧
    Frontend.validGuess ["1", "2", "", ""] =
      { ok := false, msg := "Enter all four digits." } ∧
    Frontend.validGuess ["1", "2", "0", "3"] =
      { ok := false, msg := "Use digits 1–9 (no zero)." } ∧
    Frontend.validGuess ["1", "1", "2", "3"] =
      { ok := false, msg := "All digits must be unique." } ∧
    Frontend.validGuess ["1", "2", "3", "4"] = { ok := true, msg := "" } := by
  refine ⟨validGuess_ok_iff, ?_, by decide, by decide, by decide, by decide⟩
  intro arr hlen hsym
  rw [validGuess_ok_iff]
  constructor
  · rintro ⟨h1, h2, h3⟩
    refine ⟨hlen, h3, ?_⟩
    intro d hd
    rcases hsym d hd with h | h | h
    · rw [h] at hd; exact absurd hd h1
    · rw [h] at hd; exact absurd hd h2
    · exact h
  · rintro ⟨_, h3, h4⟩
    refine ⟨?_, ?_, h3⟩
    · intro h; have := h4 _ h; revert this; decide
    · intro h; have := h4 _ h; revert this; decide

/-- The validation of the four symbols 1,2,0,3. -/
theorem validGuess_amended_witness :
    ["1", "2", "0", "3"].length = 4 ∧
    (∀ d ∈ ["1", "2", "0", "3"], d = "" ∨ d = "0" ∨ d ∈ digitPool) ∧
    ((Frontend.validGuess ["1", "2", "0", "3"]).ok = true ↔ ValidSeq ["1", "2", "0", "3"]) :=
  ⟨by decide, by decide,
    validGuess_amended.2.1 ["1", "2", "0", "3"] (by decide) (by decide)⟩

/-! ### Draw sequences -/

theorem mem_drawSequences : ∀ (bs ds : List Nat), ds ∈ drawSequences bs ↔ InRange ds bs := by
  intro bs
  induction bs with
  | nil =>
    intro ds
    simp only [drawSequences, List.mem_singleton, InRange]
    constructor
    · rintro rfl; exact List.Forall₂.nil
    · intro h; cases h; rfl
  | cons b bs ih =>
    intro ds
    simp only [drawSequences, List.mem_flatMap, List.mem_range, List.mem_map]
    constructor
    · rintro ⟨j, hj, t, ht, rfl⟩
      exact List.Forall₂.cons hj ((ih t).1 ht)
    · intro h
      cases h with
      | cons hj ht => exact ⟨_, hj, _, (ih _).2 ht, rfl⟩

theorem length_drawSequences : ∀ bs : List Nat, (drawSequences bs).length = bs.prod := by
  intro bs
  induction bs with
  | nil => rfl
  | cons b bs ih =>
    simp only [drawSequences, List.length_flatMap, List.prod_cons, Function.comp_def,
      List.length_map, ih, List.map_const', List.length_range, List.sum_replicate,
      smul_eq_mul]

theorem nodup_drawSequences : ∀ bs : List Nat, (drawSequences bs).Nodup := by
  intro bs
  induction bs with
  | nil => simp [drawSequences]
  | cons b bs ih =>
    simp only [drawSequences]
    rw [List.nodup_flatMap]
    refine ⟨?_, ?_⟩
    · intro j _
      exact ih.map (fun x y h => by injection h)
    · refine (List.nodup_range b).imp ?_
      intro j k hjk
      simp only [Function.onFun, List.disjoint_left, List.mem_map]
      rintro x ⟨t, _, rfl⟩ ⟨t', _, h⟩
      injection h with h1 _
      exact hjk h1.symm

/-- Counting over all draw sequences splits on the first draw. -/
theorem countP_drawSequences_cons (p : List Nat → Bool) (b : Nat) (bs : List Nat) :
    (drawSequences (b :: bs)).countP p =
      ((List.range b).map (fun j => (drawSequences bs).countP (fun ds => p (j :: ds)))).sum := by
  simp only [drawSequences, List.countP_flatMap, Function.comp_def, List.countP_map]

theorem map_range_getD (l : List String) :
    (List.range l.length).map (fun j => l.getD j "") = l := by
  apply List.ext_getElem
  · simp
  · intro n h1 h2
    simp [List.getD_eq_getElem?_getD, List.getElem?_eq_getElem h2]

theorem sum_map_ite (p : String → Prop) [DecidablePred p] (c : Nat) (l : List String) :
    (l.map (fun y => if p y then c else 0)).sum = l.countP (fun y => p y) * c := by
  induction l with
  | nil => simp
  | cons x xs ih =>
    by_cases hx : p x
    · simp [List.countP_cons, hx, ih]; ring
    · simp [List.countP_cons, hx, ih]

/-- A sum over drawn indices of a quantity that depends on the drawn entry only. -/
theorem sum_range_by_entry (l : List String) (g : Nat → Nat) (f : String → Nat)
    (h : ∀ j, j < l.length → g j = f (l.getD j "")) :
    ((List.range l.length).map g).sum = (l.map f).sum := by
  have h1 : (List.range l.length).map g =
      (List.range l.length).map (fun j => f (l.getD j "")) := by
    apply List.map_congr_left
    intro j hj
    exact h j (List.mem_range.1 hj)
  have h2 : l.map f = ((List.range l.length).map (fun j => l.getD j "")).map f := by
    rw [map_range_getD]
  rw [h1, h2, List.map_map]
  rfl


/-! ### `makeSecret` -/

theorem makeSecretLoop_done (pool secret : List String) (ds : List Nat)
    (h : ¬ secret.length < 4) : Singleplayer.makeSecretLoop pool secret ds = some secret := by
  cases ds <;> simp [Singleplayer.makeSecretLoop, h]

theorem makeSecretLoop_step (pool secret : List String) (j : Nat) (ds : List Nat)
    (h : secret.length < 4) (hj : j < pool.length) :
    Singleplayer.makeSecretLoop pool secret (j :: ds) =
      Singleplayer.makeSecretLoop (pool.eraseIdx j) (secret ++ [pool.getD j ""]) ds := by
  rw [Singleplayer.makeSecretLoop]
  simp [h, List.getElem?_eq_getElem hj, List.getD_eq_getElem?_getD]

theorem makeSecretLoop_extends :
    ∀ (ds : List Nat) (pool secret r : List String),
      Singleplayer.makeSecretLoop pool secret ds = some r → secret <+: r := by
  intro ds
  induction ds with
  | nil =>
    intro pool secret r h
    by_cases hl : secret.length < 4
    · simp [Singleplayer.makeSecretLoop, hl] at h
    · rw [makeSecretLoop_done _ _ _ hl] at h
      injection h with h
      rw [h]
  | cons j ds ih =>
    intro pool secret r h
    by_cases hl : secret.length < 4
    · by_cases hj : j < pool.length
      · rw [makeSecretLoop_step _ _ _ _ hl hj] at h
        exact (List.IsPrefix.trans ⟨_, rfl⟩ (ih _ _ _ h))
      · rw [Singleplayer.makeSecretLoop] at h
        simp [hl, List.getElem?_eq_none (not_lt.1 hj)] at h
    · rw [makeSecretLoop_done _ _ _ hl] at h
      injection h with h
      rw [h]

theorem getD_mem (l : List String) (j : Nat) (hj : j < l.length) : l.getD j "" ∈ l := by
  rw [List.getD_eq_getElem?_getD, List.getElem?_eq_getElem hj]
  exact List.getElem_mem hj

theorem mem_eraseIdx_of_ne (l : List String) (j : Nat) (hj : j < l.length)
    (x : String) (hx : x ∈ l) (hne : x ≠ l.getD j "") : x ∈ l.eraseIdx j := by
  rw [List.mem_eraseIdx_iff_getElem?]
  obtain ⟨k, hk, hkx⟩ := List.getElem_of_mem hx
  refine ⟨k, ?_, by rw [List.getElem?_eq_getElem hk, hkx]⟩
  rintro rfl
  apply hne
  rw [List.getD_eq_getElem?_getD, List.getElem?_eq_getElem hj]
  exact hkx.symm

/-- From a pool without repeats, every admissible continuation of `secret` is produced by
exactly one draw sequence. -/
theorem makeSecretLoop_count :
    ∀ (t pool secret : List String), pool.Nodup → t.Nodup → t ⊆ pool →
      secret.length + t.length = 4 →
      (drawSequences (drawBounds pool.length t.length)).countP
        (fun ds => decide (Singleplayer.makeSecretLoop pool secret ds = some (secret ++ t)))
        = 1 := by
  intro t
  induction t with
  | nil =>
    intro pool secret _ _ _ hlen
    have hl : ¬ secret.length < 4 := by simp at hlen; omega
    simp [drawBounds, drawSequences, makeSecretLoop_done pool secret [] hl]
  | cons z t ih =>
    intro pool secret hpool ht hsub hlen
    have hl : secret.length < 4 := by simp at hlen; omega
    have hz : z ∈ pool := hsub (List.mem_cons_self _ _)
    have hznot : z ∉ t := (List.nodup_cons.1 ht).1
    have htnd : t.Nodup := (List.nodup_cons.1 ht).2
    simp only [List.length_cons, drawBounds]
    rw [countP_drawSequences_cons]
    rw [sum_range_by_entry pool _ (fun y => if y = z then 1 else 0)]
    · rw [sum_map_ite (fun y => y = z) 1 pool, Nat.mul_one]
      have := List.count_eq_one_of_mem hpool hz
      rw [List.count_eq_countP] at this
      rw [← this]
      apply List.countP_congr
      intro x _
      simp
    · intro j hj
      by_cases hjz : pool.getD j "" = z
      · rw [if_pos hjz]
        have hsub' : t ⊆ pool.eraseIdx j := by
          intro x hx
          apply mem_eraseIdx_of_ne pool j hj x (hsub (List.mem_cons_of_mem _ hx))
          rw [hjz]
          rintro rfl
          exact hznot hx
        have hlen' : (secret ++ [z]).length + t.length = 4 := by
          simp at hlen ⊢; omega
        have IH := ih (pool.eraseIdx j) (secret ++ [z]) (hpool.eraseIdx j) htnd hsub' hlen'
        rw [List.length_eraseIdx_of_lt hj] at IH
        refine Eq.trans ?_ IH
        apply List.countP_congr
        intro ds _
        rw [makeSecretLoop_step _ _ _ _ hl hj, hjz]
        simp
      · rw [if_neg hjz]
        rw [List.countP_eq_zero]
        intro ds _
        rw [makeSecretLoop_step _ _ _ _ hl hj]
        simp only [decide_eq_true_eq]
        intro h
        have hp := makeSecretLoop_extends _ _ _ _ h
        obtain ⟨u, hu⟩ := hp
        rw [List.append_assoc] at hu
        have := List.append_cancel_left hu
        simp only [List.singleton_append] at this
        injection this with h1 _
        exact hjz h1


theorem perm_after_splice (pool secret : List String) (j : Nat) (hj : j < pool.length) :
    (pool.eraseIdx j ++ (secret ++ [pool.getD j ""])).Perm (pool ++ secret) := by
  have hy : pool.getD j "" = pool[j] := by
    rw [List.getD_eq_getElem?_getD, List.getElem?_eq_getElem hj]; rfl
  have h1 : (pool[j] :: pool.eraseIdx j).Perm pool := by
    rw [List.eraseIdx_eq_take_drop_succ]
    have h2 : pool = pool.take j ++ pool[j] :: pool.drop (j + 1) := by
      rw [List.getElem_cons_drop pool j hj, List.take_append_drop]
    conv_rhs => rw [h2]
    exact List.perm_middle.symm
  rw [hy, ← List.append_assoc]
  exact (List.perm_append_singleton _ _).trans (h1.append_right secret)

/-- With in-range draws the loop of `makeSecret` returns, and what it returns has four
entries, no repeats, and only entries of the pool and of the secret so far. -/
theorem makeSecretLoop_valid :
    ∀ (ds : List Nat) (pool secret : List String),
      InRange ds (drawBounds pool.length (4 - secret.length)) → secret.length ≤ 4 →
      (pool ++ secret).Nodup →
      ∃ r, Singleplayer.makeSecretLoop pool secret ds = some r ∧ r.length = 4 ∧ r.Nodup ∧
        r ⊆ pool ++ secret := by
  intro ds
  induction ds with
  | nil =>
    intro pool secret hr hle hnd
    by_cases hl : secret.length < 4
    · obtain ⟨m, hm⟩ : ∃ m, 4 - secret.length = m + 1 := ⟨3 - secret.length, by omega⟩
      rw [hm, drawBounds] at hr
      cases hr
    · refine ⟨secret, makeSecretLoop_done _ _ _ hl, by omega, ?_, ?_⟩
      · exact (List.nodup_append.1 hnd).2.1
      · exact List.subset_append_right _ _
  | cons j ds ih =>
    intro pool secret hr hle hnd
    by_cases hl : secret.length < 4
    · obtain ⟨m, hm⟩ : ∃ m, 4 - secret.length = m + 1 := ⟨3 - secret.length, by omega⟩
      rw [hm, drawBounds] at hr
      cases hr with
      | cons hj hrest =>
        have hperm := perm_after_splice pool secret j hj
        have hm' : 4 - (secret ++ [pool.getD j ""]).length = m := by
          simp; omega
        have hlen' : (pool.eraseIdx j).length = pool.length - 1 :=
          List.length_eraseIdx_of_lt hj
        rw [← hlen', ← hm'] at hrest
        obtain ⟨r, h1, h2, h3, h4⟩ := ih (pool.eraseIdx j) (secret ++ [pool.getD j ""]) hrest
          (by simp; omega) (hperm.nodup_iff.2 hnd)
        refine ⟨r, ?_, h2, h3, fun x hx => hperm.subset (h4 hx)⟩
        rw [makeSecretLoop_step _ _ _ _ hl hj]
        exact h1
    · refine ⟨secret, makeSecretLoop_done _ _ _ hl, by omega, ?_, ?_⟩
      · exact (List.nodup_append.1 hnd).2.1
      · exact List.subset_append_right _ _

/-! ### `generateSecret` -/

theorem stepActive_length (a : List String) (x : String) (j : Nat) :
    (stepActive a x j).length = a.length := by
  unfold stepActive
  split_ifs <;> simp

theorem perm_set_cons (x : String) :
    ∀ (a : List String) (j : Nat) (hj : j < a.length),
      (a[j] :: a.set j x).Perm (x :: a) := by
  intro a
  induction a with
  | nil => intro j hj; simp at hj
  | cons h t ih =>
    intro j hj
    cases j with
    | zero => exact List.Perm.swap _ _ _
    | succ j =>
      have hj' : j < t.length := by simpa using hj
      simp only [List.getElem_cons_succ, List.set_cons_succ]
      exact (List.Perm.swap _ _ _).trans
        (((ih j hj').cons h).trans (List.Perm.swap _ _ _))

/-- One pass of the shuffle loop moves one entry of the active part to its end and keeps
the others. -/
theorem step_perm (a : List String) (x : String) (j : Nat) (hle : j ≤ a.length) :
    (stepPicked a x j :: stepActive a x j).Perm (x :: a) := by
  unfold stepPicked stepActive
  by_cases hj : j < a.length
  · rw [if_pos hj]
    have : (a ++ [x]).getD j "" = a[j] := by
      rw [List.getD_eq_getElem?_getD, List.getElem?_append_left hj,
        List.getElem?_eq_getElem hj]
      rfl
    rw [this]
    exact perm_set_cons x a j hj
  · rw [if_neg hj]
    have hj2 : j = a.length := by omega
    have : (a ++ [x]).getD j "" = x := by
      rw [List.getD_eq_getElem?_getD, List.getElem?_append_right (by omega), hj2]
      simp
    rw [this]

/-- One pass of the shuffle loop, in terms of the active part `a ++ [x]` and the entries
`done` already in their final place. -/
theorem shuffleLoop_step (i : Nat) (a : List String) (x : String) (done : List String)
    (j : Nat) (rest : List Nat) (ha : a.length = i + 1) (hj : j ≤ i + 1) :
    Frontend.shuffleLoop (i + 1) (a ++ x :: done) (j :: rest) =
      Frontend.shuffleLoop i (stepActive a x j ++ stepPicked a x j :: done) rest := by
  have hx : (a ++ x :: done)[i + 1]? = some x := by
    rw [List.getElem?_append_right (by omega), ha]; simp
  rw [Frontend.shuffleLoop, if_pos hj, hx]
  unfold stepActive stepPicked
  by_cases hlt : j < a.length
  · have hy : (a ++ x :: done)[j]? = some a[j] := by
      rw [List.getElem?_append_left hlt, List.getElem?_eq_getElem hlt]
    have hy' : (a ++ [x]).getD j "" = a[j] := by
      rw [List.getD_eq_getElem?_getD, List.getElem?_append_left hlt,
        List.getElem?_eq_getElem hlt]
      rfl
    rw [hy, if_pos hlt, hy']
    simp only []
    congr 1
    rw [List.set_append_right _ _ (by omega), ha, Nat.sub_self, List.set_cons_zero,
      List.set_append_left _ _ hlt]
  · have hj2 : j = i + 1 := by omega
    have hy' : (a ++ [x]).getD j "" = x := by
      rw [List.getD_eq_getElem?_getD, List.getElem?_append_right (by omega), hj2, ha]
      simp
    rw [if_neg hlt, hy', hj2, hx]
    simp only []
    congr 1
    rw [List.set_append_right _ _ (by omega), ha, Nat.sub_self, List.set_cons_zero,
      List.set_append_right _ _ (by omega), ha, Nat.sub_self, List.set_cons_zero]

/-- Whatever the shuffle loop returns keeps the finished entries and permutes the active
part. -/
theorem shuffleLoop_perm :
    ∀ (i : Nat) (a done : List String) (ds : List Nat) (R : List String),
      a.length = i + 1 → Frontend.shuffleLoop i (a ++ done) ds = some R →
      ∃ r, R = r ++ done ∧ r.Perm a := by
  intro i
  induction i with
  | zero =>
    intro a done ds R _ h
    rw [Frontend.shuffleLoop] at h
    injection h with h
    exact ⟨a, h.symm, List.Perm.refl _⟩
  | succ i ih =>
    intro a done ds R ha h
    obtain ⟨a', x, rfl⟩ : ∃ a' x, a = a' ++ [x] := by
      rcases List.eq_nil_or_concat a with h0 | ⟨L, b, hb⟩
      · rw [h0] at ha; simp at ha
      · exact ⟨L, b, by rw [hb, List.concat_eq_append]⟩
    have ha' : a'.length = i + 1 := by simpa using ha
    cases ds with
    | nil => simp [Frontend.shuffleLoop] at h
    | cons j rest =>
      by_cases hj : j ≤ i + 1
      · rw [List.append_assoc, List.singleton_append,
          shuffleLoop_step i a' x done j rest ha' hj] at h
        obtain ⟨r, hR, hr⟩ := ih (stepActive a' x j) (stepPicked a' x j :: done) rest R
          (by rw [stepActive_length, ha']) h
        refine ⟨r ++ [stepPicked a' x j], by rw [hR]; simp, ?_⟩
        have h1 : (r ++ [stepPicked a' x j]).Perm (stepPicked a' x j :: stepActive a' x j) :=
          (List.perm_append_singleton _ _).trans (hr.cons _)
        exact h1.trans ((step_perm a' x j (by omega)).trans
          (List.perm_append_singleton _ _).symm)
      · rw [Frontend.shuffleLoop, if_neg hj] at h
        exact Option.noConfusion h

/-- With in-range draws the shuffle loop returns. -/
theorem shuffleLoop_isSome :
    ∀ (i : Nat) (a done : List String) (ds : List Nat),
      a.length = i + 1 → InRange ds (drawBounds (i + 1) i) →
      ∃ R, Frontend.shuffleLoop i (a ++ done) ds = some R := by
  intro i
  induction i with
  | zero =>
    intro a done ds _ _
    exact ⟨a ++ done, by rw [Frontend.shuffleLoop]⟩
  | succ i ih =>
    intro a done ds ha hr
    obtain ⟨a', x, rfl⟩ : ∃ a' x, a = a' ++ [x] := by
      rcases List.eq_nil_or_concat a with h0 | ⟨L, b, hb⟩
      · rw [h0] at ha; simp at ha
      · exact ⟨L, b, by rw [hb, List.concat_eq_append]⟩
    have ha' : a'.length = i + 1 := by simpa using ha
    rw [drawBounds] at hr
    cases hr with
    | cons hj hrest =>
      rename_i j rest
      have hj' : j ≤ i + 1 := by omega
      rw [List.append_assoc, List.singleton_append,
        shuffleLoop_step i a' x done j rest ha' hj']
      exact ih (stepActive a' x j) (stepPicked a' x j :: done) rest
        (by rw [stepActive_length, ha']) hrest


theorem countP_not_mem (a s : List String) (ha : a.Nodup) (hs : s.Nodup) (hsub : s ⊆ a) :
    a.countP (fun y => decide (y ∉ s)) = a.length - s.length := by
  have h1 := List.length_eq_countP_add_countP (fun y => decide (y ∈ s)) a
  have h2 : a.countP (fun y => decide (y ∈ s)) = s.length := by
    rw [List.countP_eq_length_filter]
    apply List.Perm.length_eq
    rw [List.perm_ext_iff_of_nodup (ha.filter _) hs]
    intro x
    simp only [List.mem_filter, decide_eq_true_eq]
    exact ⟨fun h => h.2, fun h => ⟨hsub h, h⟩⟩
  have h3 : a.countP (fun y => decide (y ∉ s)) =
      a.countP (fun y => decide ¬ (decide (y ∈ s) = true)) := by
    apply List.countP_congr
    intro x _
    simp
  rw [h3]
  rw [h2] at h1
  omega

theorem take_succ_append (r : List String) (p : String) (rest : List String) (n : Nat)
    (h : r.length = n) : (r ++ p :: rest).take (n + 1) = r ++ [p] := by
  have : r ++ p :: rest = (r ++ [p]) ++ rest := by simp
  rw [this]
  exact List.take_left' (by simp [h])

/-- From an active part without repeats, every admissible start `s` of the result is
produced by exactly `(active length - s.length)!` draw sequences. -/
theorem shuffleLoop_count :
    ∀ (i : Nat) (a done s : List String), a.length = i + 1 → a.Nodup → s.Nodup → s ⊆ a →
      s.length ≤ i + 1 →
      (drawSequences (drawBounds (i + 1) i)).countP
        (fun ds => decide ((Frontend.shuffleLoop i (a ++ done) ds).map
          (fun r => r.take s.length) = some s)) = (i + 1 - s.length).factorial := by
  intro i
  induction i with
  | zero =>
    intro a done s ha _ hs hsub hk
    obtain ⟨x, rfl⟩ : ∃ x, a = [x] := List.length_eq_one.1 ha
    have htake : (x :: done).take s.length = s := by
      cases s with
      | nil => simp
      | cons y t =>
        have ht : t = [] := by
          simp only [List.length_cons] at hk
          exact List.length_eq_zero.1 (by omega)
        have hy : y = x := by simpa using hsub (List.mem_cons_self _ _)
        subst ht; subst hy; simp
    have hfac : (0 + 1 - s.length).factorial = 1 := by
      have : s.length = 0 ∨ s.length = 1 := by omega
      rcases this with h | h <;> rw [h] <;> rfl
    rw [hfac]
    simp [drawBounds, drawSequences, Frontend.shuffleLoop, htake]
  | succ i ih =>
    intro a done s ha hnd hs hsub hk
    obtain ⟨a', x, rfl⟩ : ∃ a' x, a = a' ++ [x] := by
      rcases List.eq_nil_or_concat a with h0 | ⟨L, b, hb⟩
      · rw [h0] at ha; simp at ha
      · exact ⟨L, b, by rw [hb, List.concat_eq_append]⟩
    have ha' : a'.length = i + 1 := by simpa using ha
    -- facts about one pass, for every in-range first draw
    have hstep : ∀ j, j < (a' ++ [x]).length →
        (stepPicked a' x j :: stepActive a' x j).Perm (a' ++ [x]) := by
      intro j hj
      rw [ha] at hj
      exact (step_perm a' x j (by omega)).trans (List.perm_append_singleton _ _).symm
    have hsplit : drawBounds (i + 1 + 1) (i + 1) = (i + 2) :: drawBounds (i + 1) i := rfl
    rw [hsplit, countP_drawSequences_cons]
    by_cases hcase : s.length ≤ i + 1
    · -- the last place is outside the first entries
      have hsum := sum_range_by_entry (a' ++ [x])
        (fun j => (drawSequences (drawBounds (i + 1) i)).countP
          (fun ds => decide ((Frontend.shuffleLoop (i + 1) (a' ++ [x] ++ done) (j :: ds)).map
            (fun r => r.take s.length) = some s)))
        (fun y => if y ∉ s then (i + 1 - s.length).factorial else 0) ?_
      · rw [ha] at hsum
        rw [hsum, sum_map_ite (fun y => y ∉ s), countP_not_mem _ _ hnd hs hsub, ha]
        have : i + 1 + 1 - s.length = (i + 1 - s.length) + 1 := by omega
        rw [this, Nat.factorial_succ]
      · intro j hj
        have hp := hstep j hj
        have hnd2 : (stepPicked a' x j :: stepActive a' x j).Nodup := hp.nodup_iff.2 hnd
        have hjle : j ≤ i + 1 := by rw [ha] at hj; omega
        show _ = if stepPicked a' x j ∉ s then _ else _
        by_cases hmem : stepPicked a' x j ∈ s
        · rw [if_neg (not_not.2 hmem), List.countP_eq_zero]
          intro ds _
          rw [List.append_assoc, List.singleton_append,
            shuffleLoop_step i a' x done j ds ha' hjle]
          simp only [decide_eq_true_eq, Option.map_eq_some']
          rintro ⟨R, hR, htk⟩
          obtain ⟨r, rfl, hr⟩ := shuffleLoop_perm i _ _ ds R
            (by rw [stepActive_length, ha']) hR
          have hrl : r.length = i + 1 := by rw [hr.length_eq, stepActive_length, ha']
          rw [List.take_append_of_le_length (by omega)] at htk
          have h1 : stepPicked a' x j ∈ r := List.take_subset _ _ (by rw [htk]; exact hmem)
          exact (List.nodup_cons.1 hnd2).1 (hr.subset h1)
        · rw [if_pos hmem]
          have hsub' : s ⊆ stepActive a' x j := by
            intro y hy
            have := hp.symm.subset (hsub hy)
            rcases List.mem_cons.1 this with h | h
            · rw [h] at hy; exact absurd hy hmem
            · exact h
          have IH := ih (stepActive a' x j) (stepPicked a' x j :: done) s
            (by rw [stepActive_length, ha']) (List.nodup_cons.1 hnd2).2 hs hsub' hcase
          refine Eq.trans ?_ IH
          apply List.countP_congr
          intro ds _
          rw [List.append_assoc, List.singleton_append,
            shuffleLoop_step i a' x done j ds ha' hjle]
    · -- the first entries are the whole active part
      have hk2 : s.length = i + 2 := by omega
      obtain ⟨s', z, rfl⟩ : ∃ s' z, s = s' ++ [z] := by
        rcases List.eq_nil_or_concat s with h0 | ⟨L, b, hb⟩
        · rw [h0] at hk2; simp at hk2
        · exact ⟨L, b, by rw [hb, List.concat_eq_append]⟩
      have hs'len : s'.length = i + 1 := by simpa using hk2
      have hs'nd : s'.Nodup := (List.nodup_append.1 hs).1
      have hznot : z ∉ s' := by
        intro hz
        exact (List.nodup_append.1 hs).2.2 hz (List.mem_singleton_self z)
      have hza : z ∈ a' ++ [x] := hsub (by simp)
      have hsum := sum_range_by_entry (a' ++ [x])
        (fun j => (drawSequences (drawBounds (i + 1) i)).countP
          (fun ds => decide ((Frontend.shuffleLoop (i + 1) (a' ++ [x] ++ done) (j :: ds)).map
            (fun r => r.take (s' ++ [z]).length) = some (s' ++ [z]))))
        (fun y => if y = z then 1 else 0) ?_
      · rw [ha] at hsum
        rw [hsum, sum_map_ite (fun y => y = z), Nat.mul_one, hk2, Nat.sub_self]
        have hc := List.count_eq_one_of_mem hnd hza
        rw [List.count_eq_countP] at hc
        refine Eq.trans ?_ hc
        apply List.countP_congr
        intro y _
        simp
      · intro j hj
        have hp := hstep j hj
        have hnd2 : (stepPicked a' x j :: stepActive a' x j).Nodup := hp.nodup_iff.2 hnd
        have hjle : j ≤ i + 1 := by rw [ha] at hj; omega
        show _ = if stepPicked a' x j = z then _ else _
        by_cases hpz : stepPicked a' x j = z
        · rw [if_pos hpz]
          have hsub' : s' ⊆ stepActive a' x j := by
            intro y hy
            have := hp.symm.subset (hsub (List.mem_append_left _ hy))
            rcases List.mem_cons.1 this with h | h
            · rw [h, hpz] at hy; exact absurd hy hznot
            · exact h
          have IH := ih (stepActive a' x j) (stepPicked a' x j :: done) s'
            (by rw [stepActive_length, ha']) (List.nodup_cons.1 hnd2).2 hs'nd hsub'
            (by omega)
          rw [hs'len, Nat.sub_self, Nat.factorial_zero] at IH
          refine Eq.trans ?_ IH
          apply List.countP_congr
          intro ds _
          rw [List.append_assoc, List.singleton_append,
            shuffleLoop_step i a' x done j ds ha' hjle]
          simp only [decide_eq_true_eq, Option.map_eq_some']
          constructor
          · rintro ⟨R, hR, htk⟩
            obtain ⟨r, rfl, hr⟩ := shuffleLoop_perm i _ _ ds _
              (by rw [stepActive_length, ha']) hR
            have hrl : r.length = i + 1 := by rw [hr.length_eq, stepActive_length, ha']
            refine ⟨_, hR, ?_⟩
            rw [hk2, take_succ_append r _ done (i + 1) hrl] at htk
            have := (List.append_inj' htk (by simp)).1
            rw [List.take_left' hrl]
            exact this
          · rintro ⟨R, hR, htk⟩
            obtain ⟨r, rfl, hr⟩ := shuffleLoop_perm i _ _ ds _
              (by rw [stepActive_length, ha']) hR
            have hrl : r.length = i + 1 := by rw [hr.length_eq, stepActive_length, ha']
            refine ⟨_, hR, ?_⟩
            rw [List.take_left' hrl] at htk
            rw [hk2, take_succ_append r _ done (i + 1) hrl, htk, hpz]
        · rw [if_neg hpz, List.countP_eq_zero]
          intro ds _
          rw [List.append_assoc, List.singleton_append,
            shuffleLoop_step i a' x done j ds ha' hjle]
          simp only [decide_eq_true_eq, Option.map_eq_some']
          rintro ⟨R, hR, htk⟩
          obtain ⟨r, rfl, hr⟩ := shuffleLoop_perm i _ _ ds _
            (by rw [stepActive_length, ha']) hR
          have hrl : r.length = i + 1 := by rw [hr.length_eq, stepActive_length, ha']
          rw [hk2, take_succ_append r _ done (i + 1) hrl] at htk
          have := (List.append_inj' htk (by simp)).2
          injection this with h1 _
          exact hpz h1


/-! ### The two generators -/

theorem digitPool_nodup : digitPool.Nodup := by decide

theorem generateSecret_valid (draws : List Nat)
    (hr : InRange draws [9, 8, 7, 6, 5, 4, 3, 2]) :
    ∃ s, Frontend.generateSecret draws = some s ∧ ValidSeq s := by
  have hlen : digitPool.length = 8 + 1 := rfl
  obtain ⟨R, hR⟩ := shuffleLoop_isSome 8 digitPool [] draws hlen hr
  obtain ⟨r, hr1, hr2⟩ := shuffleLoop_perm 8 digitPool [] draws R hlen hR
  rw [List.append_nil] at hR hr1
  subst hr1
  refine ⟨R.take 4, ?_, ?_, ?_, ?_⟩
  · unfold Frontend.generateSecret
    have : digitPool.length - 1 = 8 := rfl
    rw [this, hR]
    rfl
  · rw [List.length_take, hr2.length_eq, hlen]
    rfl
  · exact (List.take_sublist 4 R).nodup (hr2.nodup_iff.2 digitPool_nodup)
  · intro d hd
    exact hr2.subset (List.take_subset 4 R hd)

theorem makeSecret_valid (draws : List Nat) (hr : InRange draws [9, 8, 7, 6]) :
    ∃ s, Singleplayer.makeSecret draws = some s ∧ ValidSeq s := by
  have hnd : (digitPool ++ ([] : List String)).Nodup := by
    rw [List.append_nil]; exact digitPool_nodup
  obtain ⟨r, h1, h2, h3, h4⟩ := makeSecretLoop_valid draws digitPool [] hr (by decide) hnd
  refine ⟨r, h1, h2, h3, ?_⟩
  intro d hd
  have := h4 hd
  rwa [List.append_nil] at this

theorem makeSecret_count (s : List String) (hs : ValidSeq s) :
    (drawSequences [9, 8, 7, 6]).countP
      (fun ds => decide (Singleplayer.makeSecret ds = some s)) = 1 := by
  have h := makeSecretLoop_count s digitPool [] digitPool_nodup hs.2.1 hs.2.2
    (by rw [hs.1]; rfl)
  rw [hs.1] at h
  exact h

theorem length_filterMap_of_isSome (f : List Nat → Option (List String)) :
    ∀ l : List (List Nat), (∀ x ∈ l, ∃ y, f x = some y) → (l.filterMap f).length = l.length := by
  intro l
  induction l with
  | nil => intro _; rfl
  | cons x xs ih =>
    intro h
    obtain ⟨y, hy⟩ := h x (List.mem_cons_self _ _)
    rw [List.filterMap_cons_some hy, List.length_cons, List.length_cons,
      ih (fun z hz => h z (List.mem_cons_of_mem _ hz))]

theorem count_filterMap_eq {α β : Type} [DecidableEq β] (f : α → Option β) (s : β) :
    ∀ l : List α,
      (l.filterMap f).count s = l.countP (fun x => decide (f x = some s)) := by
  intro l
  induction l with
  | nil => rfl
  | cons x xs ih =>
    cases hfx : f x with
    | none =>
      rw [List.filterMap_cons_none hfx, ih, List.countP_cons_of_neg]
      simp [hfx]
    | some y =>
      rw [List.filterMap_cons_some hfx]
      by_cases hys : y = s
      · rw [hys, List.count_cons_self, ih, List.countP_cons_of_pos]
        simp [hfx, hys]
      · rw [List.count_cons_of_ne (fun h => hys h.symm), ih, List.countP_cons_of_neg]
        simp [hfx, hys]

/-- C5: whatever the random draws, each one an index in the range the code computes, the
secret of `generateSecret` and the secret of `makeSecret` has exactly four entries, no
repeats, and only digits from 1 to 9. -/
theorem generators_valid :
    (∀ draws, InRange draws [9, 8, 7, 6, 5, 4, 3, 2] →
      ∃ s, Frontend.generateSecret draws = some s ∧ ValidSeq s) ∧
    (∀ draws, InRange draws [9, 8, 7, 6] →
      ∃ s, Singleplayer.makeSecret draws = some s ∧ ValidSeq s) :=
  ⟨generateSecret_valid, makeSecret_valid⟩

/-- Both generators at one in-range draw sequence each. -/
theorem generators_valid_witness :
    InRange [0, 0, 0, 0, 0, 0, 0, 0] [9, 8, 7, 6, 5, 4, 3, 2] ∧
    (∃ s, Frontend.generateSecret [0, 0, 0, 0, 0, 0, 0, 0] = some s ∧ ValidSeq s) ∧
    InRange [8, 0, 0, 5] [9, 8, 7, 6] ∧
    (∃ s, Singleplayer.makeSecret [8, 0, 0, 5] = some s ∧ ValidSeq s) :=
  ⟨by simp [InRange],
    generators_valid.1 [0, 0, 0, 0, 0, 0, 0, 0] (by simp [InRange]),
    by simp [InRange],
    generators_valid.2 [8, 0, 0, 5] (by simp [InRange])⟩

/-- C6: with every draw an index in its range, `makeSecret` has 9*8*7*6 = 3024 draw
sequences and each sequence of four distinct digits from 1 to 9 is produced by exactly
one of them, so there are 3024 such sequences; `generateSecret` has 9! = 362880 draw
sequences and each such sequence is produced by exactly 120 of them; the enumerations
list every in-range draw sequence once. -/
theorem generators_uniform :
    ((drawSequences [9, 8, 7, 6]).length = 3024 ∧ (drawSequences [9, 8, 7, 6]).Nodup ∧
      (∀ ds, ds ∈ drawSequences [9, 8, 7, 6] ↔ InRange ds [9, 8, 7, 6]) ∧
      ∀ s, ValidSeq s →
        (drawSequences [9, 8, 7, 6]).countP
          (fun ds => decide (Singleplayer.makeSecret ds = some s)) = 1) ∧
    (((drawSequences [9, 8, 7, 6]).filterMap Singleplayer.makeSecret).length = 3024 ∧
      ((drawSequences [9, 8, 7, 6]).filterMap Singleplayer.makeSecret).Nodup ∧
      ∀ s, s ∈ (drawSequences [9, 8, 7, 6]).filterMap Singleplayer.makeSecret ↔
        ValidSeq s) ∧
    ((drawSequences [9, 8, 7, 6, 5, 4, 3, 2]).length = 362880 ∧
      (drawSequences [9, 8, 7, 6, 5, 4, 3, 2]).Nodup ∧
      (∀ ds, ds ∈ drawSequences [9, 8, 7, 6, 5, 4, 3, 2] ↔
        InRange ds [9, 8, 7, 6, 5, 4, 3, 2]) ∧
      ∀ s, ValidSeq s →
        (drawSequences [9, 8, 7, 6, 5, 4, 3, 2]).countP
          (fun ds => decide (Frontend.generateSecret ds = some s)) = 120) := by
  have hmem : ∀ s, s ∈ (drawSequences [9, 8, 7, 6]).filterMap Singleplayer.makeSecret ↔
      ValidSeq s := by
    intro s
    rw [List.mem_filterMap]
    constructor
    · rintro ⟨ds, hds, hs⟩
      obtain ⟨s', h1, h2⟩ := makeSecret_valid ds ((mem_drawSequences _ _).1 hds)
      rw [hs] at h1
      injection h1 with h1
      rw [h1]; exact h2
    · intro hs
      have hpos : 0 < (drawSequences [9, 8, 7, 6]).countP
          (fun ds => decide (Singleplayer.makeSecret ds = some s)) := by
        rw [makeSecret_count s hs]; exact Nat.one_pos
      obtain ⟨ds, hds, hp⟩ := List.countP_pos_iff.1 hpos
      exact ⟨ds, hds, by simpa using hp⟩
  refine ⟨⟨?_, nodup_drawSequences _, mem_drawSequences _, makeSecret_count⟩,
    ⟨?_, ?_, hmem⟩,
    ⟨?_, nodup_drawSequences _, mem_drawSequences _, ?_⟩⟩
  · rw [length_drawSequences]; rfl
  · rw [length_filterMap_of_isSome, length_drawSequences]
    · rfl
    · intro ds hds
      obtain ⟨s, h1, _⟩ := makeSecret_valid ds ((mem_drawSequences _ _).1 hds)
      exact ⟨s, h1⟩
  · rw [List.nodup_iff_count_le_one]
    intro s
    rw [count_filterMap_eq]
    by_cases hs : ValidSeq s
    · rw [makeSecret_count s hs]
    · have : (drawSequences [9, 8, 7, 6]).countP
          (fun ds => decide (Singleplayer.makeSecret ds = some s)) = 0 := by
        rw [List.countP_eq_zero]
        intro ds hds hp
        apply hs
        rw [← hmem]
        exact List.mem_filterMap.2 ⟨ds, hds, by simpa using hp⟩
      rw [this]
      exact Nat.zero_le _
  · rw [length_drawSequences]; rfl
  · intro s hs
    have h := shuffleLoop_count 8 digitPool [] s rfl digitPool_nodup hs.2.1 hs.2.2
      (by rw [hs.1]; decide)
    rw [hs.1, List.append_nil] at h
    exact h

/-- The counts for the sequence 9,1,2,8. -/
theorem generators_uniform_witness :
    ValidSeq ["9", "1", "2", "8"] ∧
    (drawSequences [9, 8, 7, 6]).countP
      (fun ds => decide (Singleplayer.makeSecret ds = some ["9", "1", "2", "8"])) = 1 ∧
    (drawSequences [9, 8, 7, 6, 5, 4, 3, 2]).countP
      (fun ds => decide (Frontend.generateSecret ds = some ["9", "1", "2", "8"])) = 120 :=
  ⟨by decide, generators_uniform.1.2.2.2 _ (by decide),
    generators_uniform.2.2.2.2.2 _ (by decide)⟩


/-! ## Sessions -/

/-- C8: in the frontend the session is not terminal after a win. With secret 3,7,1,9 the
guess 3,7,1,9 scores four positions and marks the boxes as won; the boxes are then filled
with 1,2,3,4 and the next `submit`, with no reset in between, adds a second row to the
history. -/
theorem frontend_submit_after_win :
    (Frontend.submit
      { secret := ["3", "7", "1", "9"], history := [], inputs := ["3", "7", "1", "9"],
        hint := "", win := false }).history =
      [{ numberStr := "3719", correctDigits := 4, correctPositions := 4 }] ∧
    (Frontend.submit
      { secret := ["3", "7", "1", "9"], history := [], inputs := ["3", "7", "1", "9"],
        hint := "", win := false }).win = true ∧
    (Frontend.onInput (Frontend.onInput (Frontend.onInput (Frontend.onInput
      (Frontend.submit
        { secret := ["3", "7", "1", "9"], history := [], inputs := ["3", "7", "1", "9"],
          hint := "", win := false }) 0 "1") 1 "2") 2 "3") 3 "4").inputs =
      ["1", "2", "3", "4"] ∧
    (Frontend.submit (Frontend.onInput (Frontend.onInput (Frontend.onInput (Frontend.onInput
      (Frontend.submit
        { secret := ["3", "7", "1", "9"], history := [], inputs := ["3", "7", "1", "9"],
          hint := "", win := false }) 0 "1") 1 "2") 2 "3") 3 "4")).history =
      [{ numberStr := "1234", correctDigits := 2, correctPositions := 0 },
       { numberStr := "3719", correctDigits := 4, correctPositions := 4 }] := by
  refine ⟨by decide, by decide, by decide, by decide⟩

/-- C9: in the singleplayer variant a box can come to hold the digit 0. From four empty
boxes the input event with raw text 10 in box 0 leaves 0 in that box; after keypad
clicks on 1, 2 and 3 the boxes read 0,1,2,3 and `onSubmit` scores that guess. -/
theorem singleplayer_zero_enters_box :
    (Singleplayer.onInput
      { secret := ["3", "7", "1", "9"], digitsInputs := ["", "", "", ""], historyBody := [],
        submitDisabled := false, inputsDisabled := false } 0 "10").digitsInputs =
      ["0", "", "", ""] ∧
    ¬ BoxesOk ["0", "", "", ""] ∧
    (Singleplayer.onKeypad (Singleplayer.onKeypad (Singleplayer.onKeypad
      (Singleplayer.onInput
        { secret := ["3", "7", "1", "9"], digitsInputs := ["", "", "", ""],
          historyBody := [], submitDisabled := false, inputsDisabled := false } 0 "10")
      "1") "2") "3").digitsInputs = ["0", "1", "2", "3"] ∧
    ¬ ValidSeq ["0", "1", "2", "3"] ∧
    (Singleplayer.onSubmit (Singleplayer.onKeypad (Singleplayer.onKeypad
      (Singleplayer.onKeypad
        (Singleplayer.onInput
          { secret := ["3", "7", "1", "9"], digitsInputs := ["", "", "", ""],
            historyBody := [], submitDisabled := false, inputsDisabled := false } 0 "10")
        "1") "2") "3")).historyBody =
      [{ guess := "0123", digitsCorrect := 2, positionsCorrect := 0 }] := by
  refine ⟨by decide, by decide, by decide, by decide, by decide⟩

/-- C10: the frontend input handler rejects an empty sanitised value. With 5 in box 0 and
the other boxes empty, deleting the 5 gives raw text that sanitises to the empty string,
and the handler takes the duplicate branch: the box is cleared and the hint reads
"No repeating digits." although no digit is held twice. -/
theorem frontend_input_rejects_empty :
    keepOneToNine "" = "" ∧
    Frontend.onInput
      { secret := ["3", "7", "1", "9"], history := [], inputs := ["5", "", "", ""],
        hint := "", win := false } 0 "" =
      { secret := ["3", "7", "1", "9"], history := [], inputs := ["", "", "", ""],
        hint := "No repeating digits.", win := false } ∧
    "5" ∉ ["", "", ""] := by
  refine ⟨by decide, by decide, by decide⟩


end Formula4
